import Mathlib

/-!
# Verification of the keytransparency mutation sequencing pipeline

A shallow embedding of the core mutation-sequencing pipeline of the
keytransparency repository: the per-domain Mutation Log, the pure Entry
Mutator, the Sequencer's batch algorithm with its atomic
(revision, watermark) commit, the Batch Scheduler's per-domain failure
isolation, and the operational configuration and startup control flow of
the sequencer binary.

The repository snapshot under analysis contains the integration
environment (`impl/integration/env.go`) and the sequencer binary's
`main`; the cores they wire together (`core/mutator/entry`,
`core/sequencer`, `impl/sql/mutationstorage`) are modelled faithfully
from the specification where noted.
-/

namespace KT

/-- A target user index (VRF-derived, opaque to the core). -/
abbrev Index := Nat

/-- A leaf value; `Option Value` with `none` as the absent leaf /
canonical empty sentinel. -/
abbrev Value := Nat

/-- A client-submitted mutation: the target index, the reference to the
previous leaf value it intends to supersede (`none` is the canonical
"empty" sentinel), the proposed new value, and whether it passes
signature/format checks. -/
structure Mutation where
  index : Index
  prevRef : Option Value
  newValue : Value
  wellFormed : Bool
deriving DecidableEq, Repr

/-- Terminal rejection outcomes of the Entry Mutator. -/
inductive RejectionReason where
  | StalePrecondition
  | InvalidMutation
deriving DecidableEq, Repr

/-- The full-map leaf state, as an association list from index to value;
an index that is absent holds no leaf. -/
abbrev Leaves := List (Index × Value)

/-- Look up the leaf value at an index (`none` if the leaf is absent). -/
def getLeaf (ls : Leaves) (i : Index) : Option Value :=
  (ls.find? (fun p => p.1 == i)).map (·.2)

/-- Write the leaf value at an index, replacing any previous binding. -/
def setLeaf (ls : Leaves) (i : Index) (v : Value) : Leaves :=
  (i, v) :: ls.filter (fun p => p.1 != i)

/-- Modelled from the spec: the Entry Mutator `Apply` of
`core/mutator/entry` (constructed by `entry.New()` in `env.go`), absent
from the snapshot. `Apply(previousLeaf, mutation)` is a pure state
transition: a mutation failing signature/format checks is rejected with
`InvalidMutation`; a mutation whose declared previous-state reference
does not match `previousLeaf` (with the empty sentinel matching only an
absent leaf) is rejected with `StalePrecondition`; otherwise the
proposed new value becomes the new leaf. -/
def Apply (previousLeaf : Option Value) (m : Mutation) :
    Except RejectionReason Value :=
  if !m.wellFormed then .error .InvalidMutation
  else if m.prevRef = previousLeaf then .ok m.newValue
  else .error .StalePrecondition

/-- `Apply` succeeds exactly on a well-formed mutation whose previous
reference matches the leaf as it stands in `base`. -/
def okM (base : Leaves) (m : Mutation) : Bool :=
  m.wellFormed && (m.prevRef == getLeaf base m.index)

/-- Modelled from the spec: steps 3–4 of the Sequencer algorithm of
`core/sequencer`, absent from the snapshot. Mutations are processed in
sequence order; each precondition is checked against the leaf value as
it stood before this batch (`base`, the revision-R state), never against
intermediate in-batch results, and once one mutation for an index has
been accepted every later mutation to that index in the same batch is
rejected with `StalePrecondition`. `cur` is the leaf set under
construction and `done` the indices already written in this batch. -/
def runBatchAux (base : Leaves) :
    Leaves → List Index → List Mutation →
      Leaves × List (Except RejectionReason Value)
  | cur, _, [] => (cur, [])
  | cur, done, m :: rest =>
    if m.index ∈ done then
      let p := runBatchAux base cur done rest
      (p.1, Except.error RejectionReason.StalePrecondition :: p.2)
    else
      match Apply (getLeaf base m.index) m with
      | .ok v =>
        let p := runBatchAux base (setLeaf cur m.index v) (m.index :: done) rest
        (p.1, Except.ok v :: p.2)
      | .error e =>
        let p := runBatchAux base cur done rest
        (p.1, Except.error e :: p.2)

/-- Modelled from the spec: process one batch against the revision-R
leaf state, returning the new leaf state and the per-mutation
outcomes in batch order. -/
def runBatch (base : Leaves) (b : List Mutation) :
    Leaves × List (Except RejectionReason Value) :=
  runBatchAux base base [] b

/-- A mutation at some position is blocked if its index was already
written (`done`), or some earlier mutation of the batch (`pre`) to the
same index had a matching precondition (and hence was accepted). -/
def Blocked (base : Leaves) (done : List Index) (idx : Index)
    (pre : List Mutation) : Prop :=
  idx ∈ done ∨ ∃ p ∈ pre, okM base p = true ∧ p.index = idx

instance (base : Leaves) (done : List Index) (idx : Index)
    (pre : List Mutation) : Decidable (Blocked base done idx pre) := by
  unfold Blocked; infer_instance

/-- Modelled from the spec: `Send(domain, mutation)` of the Mutation Log
(`mutationstorage.New` in the snapshot only constructs it). Admission
appends the mutation and atomically assigns the next sequence number;
the sequence number of a mutation is its 1-based position in the log. -/
def Send (log : List Mutation) (m : Mutation) : List Mutation × Nat :=
  (log ++ [m], log.length + 1)

/-- Modelled from the spec: `HighestSequence(domain)` of the Mutation
Log — the sequence number of the most recently admitted mutation. -/
def HighestSequence (log : List Mutation) : Nat := log.length

/-- Pair the mutations of a list with consecutive sequence numbers
starting at `s`. -/
def numberFrom (s : Nat) : List Mutation → List (Nat × Mutation)
  | [] => []
  | m :: rest => (s, m) :: numberFrom (s + 1) rest

/-- Modelled from the spec: `ReadBatch(domain, startAfterSeq, maxCount)`
of the Mutation Log — the first `maxCount` mutations with sequence
numbers strictly greater than `startAfter`, in sequence order. -/
def ReadBatch (log : List Mutation) (startAfter maxCount : Nat) :
    List (Nat × Mutation) :=
  numberFrom (startAfter + 1) ((log.drop startAfter).take maxCount)

/-- A committed revision: its number, the sequence number of the last
mutation incorporated into it, and the leaf state it anchors. -/
structure Revision where
  number : Nat
  lastSeq : Nat
  leaves : Leaves
deriving DecidableEq, Repr

/-- Per-domain sequencer state: the creation revision number, the
Mutation Log, the committed revisions (in commit order), the watermark
and the current leaf state. -/
structure DomainState where
  creation : Nat
  log : List Mutation
  revisions : List Revision
  watermark : Nat
  leaves : Leaves
deriving DecidableEq, Repr

/-- The state of a freshly created domain. -/
def initState (creation : Nat) : DomainState :=
  ⟨creation, [], [], 0, []⟩

/-- Modelled from the spec: one Sequencer invocation for a domain
(§4.3 steps 1–6 of `core/sequencer`, absent from the snapshot).
`commitOk` is the outcome of the Tree Anchor Client commit and
`heartbeat` whether the empty-batch heartbeat policy is configured.
An empty batch is a no-op unless the heartbeat policy applies; a
non-empty batch is validated against the revision-R leaves and, on a
successful commit, the new revision is appended and the watermark is
advanced to the last sequence number of the batch in the same atomic
step; a failed commit abandons the whole batch with no state change. -/
def tick (commitOk heartbeat : Bool) (maxBatch : Nat)
    (s : DomainState) : DomainState :=
  match ReadBatch s.log s.watermark maxBatch with
  | [] =>
    if heartbeat && commitOk then
      { s with revisions := s.revisions ++
          [⟨s.creation + s.revisions.length, s.watermark, s.leaves⟩] }
    else s
  | b =>
    if commitOk then
      let p := runBatch s.leaves (b.map (·.2))
      { s with
        leaves := p.1,
        revisions := s.revisions ++
          [⟨s.creation + s.revisions.length, s.watermark + b.length, p.1⟩],
        watermark := s.watermark + b.length }
    else s

/-- Modelled from the spec: the reachable per-domain states — from the
initial state, mutations are admitted through `Send` and the Sequencer
runs ticks whose Tree Anchor Client commit may succeed or fail. -/
inductive Reachable : DomainState → Prop where
  | init (creation : Nat) : Reachable (initState creation)
  | send (s : DomainState) (m : Mutation) : Reachable s →
      Reachable { s with log := (Send s.log m).1 }
  | step (s : DomainState) (commitOk heartbeat : Bool) (maxBatch : Nat) :
      Reachable s → Reachable (tick commitOk heartbeat maxBatch s)

/-- The atomic (revision, watermark) coupling: the watermark equals the
last sequence number anchored by the newest committed revision (0 when
no revision exists), and every committed revision's incorporated
mutations are reflected by the watermark. -/
def WatermarkAnchored (s : DomainState) : Prop :=
  (match s.revisions.getLast? with
   | none => s.watermark = 0
   | some r => s.watermark = r.lastSeq) ∧
  ∀ r ∈ s.revisions, r.lastSeq ≤ s.watermark

/-- Modelled from the spec: one Batch Scheduler tick over all domains
(`signer.RunBatchForAllDomains` driven by `sequencer.PeriodicallyRun` in
the snapshot's `main`). Each listed domain is run in turn; a domain
whose run fails (`none`) is left unchanged and recorded as failed, and
iteration continues with the remaining domains. -/
def runAllDomains (run : Nat → DomainState → Option DomainState) :
    List (Nat × DomainState) → List (Nat × DomainState) × List Nat
  | [] => ([], [])
  | (i, d) :: rest =>
    let p := runAllDomains run rest
    match run i d with
    | some d2 => ((i, d2) :: p.1, p.2)
    | none => ((i, d) :: p.1, i :: p.2)

/-- The `batch-size` flag of the sequencer binary:
`flag.Int("batch-size", 100, "Maximum number of mutations to process
per map revision")`. -/
def batchSizeDefault : Nat := 100

/-- Nanoseconds in one second (`time.Second`). -/
def nanosPerSecond : Nat := 1000000000

/-- The `domain-refresh` flag of the sequencer binary:
`flag.Duration("domain-refresh", 5*time.Second, "Time to detect new
domain")`, a `time.Duration` in nanoseconds. -/
def domainRefreshDefault : Nat := 5 * nanosPerSecond

/-- A flag's effective value: the command-line override when one is
given, the declared default otherwise. -/
def flagValue (dflt : Nat) (override : Option Nat) : Nat :=
  override.getD dflt

/-- Observable startup events of the sequencer binary's `main`. -/
inductive MainEvent where
  | dialMap
  | dialLog
  | openDB
  | newMutationStorage
  | newDomainStorage
  | newSequencerServer
  | runAndConnect
  | logSequencerLaunchError
  | deferStop
  | newSigner
  | newAdminServer
  | startHTTPServer
  | periodicallyRun
  | logPeriodicRunError
  | httpShutdown
  | exitProcess
deriving DecidableEq, Repr

/-- Which of the fallible calls in `main` fail. -/
structure MainFailures where
  dialMapErr : Bool
  dialLogErr : Bool
  openDBErr : Bool
  mutationStorageErr : Bool
  domainStorageErr : Bool
  runAndConnectErr : Bool
  periodicRunErr : Bool
deriving DecidableEq, Repr

/-- The sequence of events executed by the sequencer binary's `main`,
from the source: the grpc dials, `openDB` and the storage constructors
terminate the process on error (`glog.Exitf`); a `RunAndConnect` error
is only logged (`glog.Errorf`), after which `defer stop()` is still
registered and execution proceeds to the signer, the admin server, the
HTTP server and the periodic batch loop; a `PeriodicallyRun` error is
likewise only logged. -/
def mainTrace (f : MainFailures) : List MainEvent :=
  if f.dialMapErr then [.dialMap, .exitProcess]
  else if f.dialLogErr then [.dialMap, .dialLog, .exitProcess]
  else if f.openDBErr then [.dialMap, .dialLog, .openDB, .exitProcess]
  else if f.mutationStorageErr then
    [.dialMap, .dialLog, .openDB, .newMutationStorage, .exitProcess]
  else if f.domainStorageErr then
    [.dialMap, .dialLog, .openDB, .newMutationStorage, .newDomainStorage,
     .exitProcess]
  else
    [.dialMap, .dialLog, .openDB, .newMutationStorage, .newDomainStorage,
     .newSequencerServer, .runAndConnect] ++
    (if f.runAndConnectErr then [.logSequencerLaunchError] else []) ++
    [.deferStop, .newSigner, .newAdminServer, .startHTTPServer,
     .periodicallyRun] ++
    (if f.periodicRunErr then [.logPeriodicRunError] else []) ++
    [.httpShutdown]

/-! ## Supporting lemmas -/

theorem apply_ok_iff (base : Leaves) (m : Mutation) :
    (∃ v, Apply (getLeaf base m.index) m = .ok v) ↔ okM base m = true := by
  unfold Apply okM
  cases hw : m.wellFormed <;> simp [hw]
  constructor
  · rintro ⟨v, hv⟩
    split at hv
    · next h => exact h
    · exact absurd hv (by simp)
  · intro h
    exact ⟨m.newValue, by simp [h]⟩

theorem apply_ok_val (base : Leaves) (m : Mutation) (h : okM base m = true) :
    Apply (getLeaf base m.index) m = .ok m.newValue := by
  unfold okM at h
  simp only [Bool.and_eq_true, beq_iff_eq] at h
  unfold Apply
  simp [h.1, h.2]

theorem runBatchAux_length (base : Leaves) (b : List Mutation) :
    ∀ cur done, ((runBatchAux base cur done b).2).length = b.length := by
  induction b with
  | nil => intro cur done; rfl
  | cons m rest ih =>
    intro cur done
    unfold runBatchAux
    by_cases hmem : m.index ∈ done
    · simp [hmem, ih]
    · cases hA : Apply (getLeaf base m.index) m with
      | ok v => simp [hmem, hA, ih]
      | error e => simp [hmem, hA, ih]

/-- Closed-form outcome of the mutation at position `k`: rejected with
`StalePrecondition` when blocked by the in-batch history, otherwise the
Entry Mutator verdict against the start-of-batch leaf. -/
theorem runBatchAux_get? (base : Leaves) (b : List Mutation) :
    ∀ (cur : Leaves) (done : List Index) (k : Nat) (hk : k < b.length),
    (runBatchAux base cur done b).2.get? k =
      some (if Blocked base done ((b.get ⟨k, hk⟩).index) (b.take k)
            then Except.error RejectionReason.StalePrecondition
            else Apply (getLeaf base ((b.get ⟨k, hk⟩).index))
                   (b.get ⟨k, hk⟩)) := by
  induction b with
  | nil => intro cur done k hk; exact absurd hk (by simp)
  | cons m rest ih =>
    intro cur done k hk
    match k with
    | 0 =>
      by_cases hmem : m.index ∈ done
      · have hb : Blocked base done m.index [] := Or.inl hmem
        simp only [runBatchAux, hmem, if_true, List.get?_cons_zero,
          List.take_zero, show (m :: rest).get ⟨0, hk⟩ = m from rfl]
        rw [if_pos hb]
      · have hb : ¬ Blocked base done m.index [] := by
          intro h
          rcases h with h | ⟨p, hp, _⟩
          · exact hmem h
          · simp at hp
        cases hA : Apply (getLeaf base m.index) m with
        | ok v =>
          simp only [runBatchAux, hmem, if_false, hA, List.get?_cons_zero,
            List.take_zero, show (m :: rest).get ⟨0, hk⟩ = m from rfl]
          rw [if_neg hb]
        | error e =>
          simp only [runBatchAux, hmem, if_false, hA, List.get?_cons_zero,
            List.take_zero, show (m :: rest).get ⟨0, hk⟩ = m from rfl]
          rw [if_neg hb]
    | k + 1 =>
      have hk' : k < rest.length := by simpa using hk
      by_cases hmem : m.index ∈ done
      · have heq : Blocked base done ((rest.get ⟨k, hk'⟩).index)
            ((m :: rest).take (k + 1)) ↔
            Blocked base done ((rest.get ⟨k, hk'⟩).index) (rest.take k) := by
          unfold Blocked
          constructor
          · rintro (h | ⟨p, hp, hok, hidx⟩)
            · exact Or.inl h
            · rcases List.mem_cons.mp (by simpa using hp) with rfl | hp'
              · exact Or.inl (hidx ▸ hmem)
              · exact Or.inr ⟨p, hp', hok, hidx⟩
          · rintro (h | ⟨p, hp, hok, hidx⟩)
            · exact Or.inl h
            · exact Or.inr ⟨p, by simp [hp], hok, hidx⟩
        rw [runBatchAux]
        simp only [hmem, if_true, List.get?_cons_succ]
        rw [ih cur done k hk']
        simp only [List.get_cons_succ]
        congr 1
        exact if_congr heq.symm rfl rfl
      · cases hA : Apply (getLeaf base m.index) m with
        | ok v =>
          have hok : okM base m = true := (apply_ok_iff base m).mp ⟨v, hA⟩
          have heq : Blocked base (m.index :: done) ((rest.get ⟨k, hk'⟩).index)
              (rest.take k) ↔
              Blocked base done ((rest.get ⟨k, hk'⟩).index)
                ((m :: rest).take (k + 1)) := by
            unfold Blocked
            constructor
            · rintro (h | ⟨p, hp, hpok, hidx⟩)
              · rcases List.mem_cons.mp h with h' | h'
                · exact Or.inr ⟨m, by simp, hok, h'.symm⟩
                · exact Or.inl h'
              · exact Or.inr ⟨p, by simp [hp], hpok, hidx⟩
            · rintro (h | ⟨p, hp, hpok, hidx⟩)
              · exact Or.inl (List.mem_cons_of_mem _ h)
              · rcases List.mem_cons.mp (by simpa using hp) with rfl | hp'
                · exact Or.inl (hidx ▸ List.mem_cons_self _ _)
                · exact Or.inr ⟨p, hp', hpok, hidx⟩
          rw [runBatchAux]
          simp only [hmem, if_false, hA, List.get?_cons_succ]
          rw [ih (setLeaf cur m.index v) (m.index :: done) k hk']
          simp only [List.get_cons_succ]
          congr 1
          exact if_congr heq rfl rfl
        | error e =>
          have hok : ¬ okM base m = true := by
            intro h
            rw [apply_ok_val base m h] at hA
            exact absurd hA (by simp)
          have heq : Blocked base done ((rest.get ⟨k, hk'⟩).index)
              (rest.take k) ↔
              Blocked base done ((rest.get ⟨k, hk'⟩).index)
                ((m :: rest).take (k + 1)) := by
            unfold Blocked
            constructor
            · rintro (h | ⟨p, hp, hpok, hidx⟩)
              · exact Or.inl h
              · exact Or.inr ⟨p, by simp [hp], hpok, hidx⟩
            · rintro (h | ⟨p, hp, hpok, hidx⟩)
              · exact Or.inl h
              · rcases List.mem_cons.mp (by simpa using hp) with rfl | hp'
                · exact absurd hpok hok
                · exact Or.inr ⟨p, hp', hpok, hidx⟩
          rw [runBatchAux]
          simp only [hmem, if_false, hA, List.get?_cons_succ]
          rw [ih cur done k hk']
          simp only [List.get_cons_succ]
          congr 1
          exact if_congr heq rfl rfl

theorem runBatch_get? (base : Leaves) (b : List Mutation) (k : Nat)
    (hk : k < b.length) :
    (runBatch base b).2.get? k =
      some (if Blocked base [] ((b.get ⟨k, hk⟩).index) (b.take k)
            then Except.error RejectionReason.StalePrecondition
            else Apply (getLeaf base ((b.get ⟨k, hk⟩).index))
                   (b.get ⟨k, hk⟩)) :=
  runBatchAux_get? base b base [] k hk

theorem numberFrom_get? (l : List Mutation) :
    ∀ (s k : Nat),
    (numberFrom s l).get? k = (l.get? k).map (fun mu => (s + k, mu)) := by
  induction l with
  | nil => intro s k; simp [numberFrom]
  | cons m rest ih =>
    intro s k
    match k with
    | 0 => simp [numberFrom]
    | k + 1 =>
      simp only [numberFrom, List.get?_cons_succ, ih (s + 1) k]
      cases rest.get? k <;> simp
      omega

/-! ## Claim theorems -/

/-- **C2.** In a batch processed against the revision-R leaf state
`base`, every well-formed mutation whose previous-state reference does
not match the leaf value as it stood at the start of the batch is
rejected with `StalePrecondition`; and once a mutation for an index has
succeeded, every later mutation to the same index in that batch is
rejected with `StalePrecondition`. -/
theorem stale_precondition_law (base : Leaves) (b : List Mutation)
    (j k : Nat) (hj : j < b.length) (hk : k < b.length) :
    ((b.get ⟨k, hk⟩).wellFormed = true →
      (b.get ⟨k, hk⟩).prevRef ≠ getLeaf base ((b.get ⟨k, hk⟩).index) →
      (runBatch base b).2.get? k =
        some (Except.error RejectionReason.StalePrecondition)) ∧
    (j < k → (b.get ⟨j, hj⟩).index = (b.get ⟨k, hk⟩).index →
      (∃ v, (runBatch base b).2.get? j = some (Except.ok v)) →
      (runBatch base b).2.get? k =
        some (Except.error RejectionReason.StalePrecondition)) := by
  constructor
  · intro hwf hne
    rw [runBatch_get? base b k hk]
    by_cases hbk : Blocked base [] ((b.get ⟨k, hk⟩).index) (b.take k)
    · rw [if_pos hbk]
    · rw [if_neg hbk]
      unfold Apply
      simp only [List.get_eq_getElem] at hwf hne
      simp [hwf, hne]
  · rintro hjk hidx ⟨v, hv⟩
    rw [runBatch_get? base b j hj] at hv
    by_cases hbj : Blocked base [] ((b.get ⟨j, hj⟩).index) (b.take j)
    · rw [if_pos hbj] at hv
      exact absurd hv (by simp)
    · rw [if_neg hbj] at hv
      have hok : okM base (b.get ⟨j, hj⟩) = true := by
        injection hv with hv2
        exact (apply_ok_iff base _).mp ⟨v, hv2⟩
      rw [runBatch_get? base b k hk]
      have hbk : Blocked base [] ((b.get ⟨k, hk⟩).index) (b.take k) := by
        refine Or.inr ⟨b.get ⟨j, hj⟩, ?_, hok, hidx⟩
        rw [List.get_take b hj hjk]
        exact List.get_mem _ _ _
      rw [if_pos hbk]

/-- Witness for C2, scenario B of the spec: with leaf `1 ↦ 5` at the
start of the batch, `m2 = (1, some 5, 7)` is accepted and
`m3 = (1, some 5, 9)` is rejected with `StalePrecondition`. -/
theorem stale_precondition_law_witness :
    (runBatch [(1, 5)]
        [⟨1, some 5, 7, true⟩, ⟨1, some 5, 9, true⟩]).2.get? 1 =
      some (Except.error RejectionReason.StalePrecondition) :=
  (stale_precondition_law [(1, 5)]
      [⟨1, some 5, 7, true⟩, ⟨1, some 5, 9, true⟩] 0 1
      (by decide) (by decide)).2 (by decide) rfl ⟨7, rfl⟩

/-- **C4.** The Entry Mutator is pure and deterministic: two invocations
on equal inputs return equal outputs, and replaying a whole batch from
the same start state is the identical computation. -/
theorem entry_mutator_pure (p q : Option Value) (m n : Mutation)
    (base : Leaves) (b : List Mutation) (hpq : p = q) (hmn : m = n) :
    Apply p m = Apply q n ∧ runBatch base b = runBatch base b := by
  subst hpq; subst hmn; exact ⟨rfl, rfl⟩

/-- Witness for C4 at a concrete input pair. -/
theorem entry_mutator_pure_witness :
    Apply (some 5) ⟨1, some 5, 7, true⟩ = Apply (some 5) ⟨1, some 5, 7, true⟩ ∧
    runBatch [(1, 5)] [⟨1, some 5, 7, true⟩] =
      runBatch [(1, 5)] [⟨1, some 5, 7, true⟩] :=
  entry_mutator_pure (some 5) (some 5) ⟨1, some 5, 7, true⟩
    ⟨1, some 5, 7, true⟩ [(1, 5)] [⟨1, some 5, 7, true⟩] rfl rfl

/-- **C6.** Mutation Log contract: `Send` atomically assigns the next
sequence number (gapless, strictly increasing — the new highest is the
old highest plus one); the `k`-th element of `ReadBatch(log, a, c)`
carries sequence number `a + 1 + k` and the corresponding mutation from
the log, so the batch is strictly in sequence order with no gaps and no
duplicates; and two `ReadBatch` calls with the same arguments return the
same result. -/
theorem mutation_log_contract (log : List Mutation) (m : Mutation)
    (a c k : Nat) :
    (Send log m).2 = HighestSequence log + 1 ∧
    HighestSequence (Send log m).1 = (Send log m).2 ∧
    (ReadBatch log a c).get? k =
      (((log.drop a).take c).get? k).map (fun mu => (a + 1 + k, mu)) ∧
    ReadBatch log a c = ReadBatch log a c := by
  refine ⟨rfl, by simp [Send, HighestSequence], ?_, rfl⟩
  unfold ReadBatch
  rw [numberFrom_get?]

/-- **C7.** An empty batch is a no-op: when `ReadBatch` returns no
mutations and the heartbeat policy is not configured, a Sequencer tick
leaves the domain state unchanged — no revision is created and the
watermark is untouched. -/
theorem empty_batch_no_op (cOk : Bool) (maxB : Nat) (s : DomainState)
    (hempty : ReadBatch s.log s.watermark maxB = []) :
    tick cOk false maxB s = s := by
  unfold tick
  rw [hempty]
  simp

/-- Witness for C7: a tick on a fresh domain with an empty log is a
no-op. -/
theorem empty_batch_no_op_witness :
    tick true false 100 (initState 0) = initState 0 :=
  empty_batch_no_op true 100 (initState 0) rfl

/-- **C9.** Operational configuration of the sequencer binary: the batch
size cap defaults to 100 mutations per map revision, the domain-refresh
(tick) interval defaults to 5 seconds, and a command-line override
replaces either default. -/
theorem config_defaults :
    batchSizeDefault = 100 ∧
    domainRefreshDefault = 5 * nanosPerSecond ∧
    (∀ o : Nat, flagValue batchSizeDefault (some o) = o) ∧
    flagValue batchSizeDefault none = 100 ∧
    (∀ o : Nat, flagValue domainRefreshDefault (some o) = o) ∧
    flagValue domainRefreshDefault none = 5000000000 :=
  ⟨rfl, rfl, fun _ => rfl, rfl, fun _ => rfl, rfl⟩

theorem runAllDomains_length (run : Nat → DomainState → Option DomainState)
    (ds : List (Nat × DomainState)) :
    (runAllDomains run ds).1.length = ds.length := by
  induction ds with
  | nil => rfl
  | cons hd rest ih =>
    obtain ⟨i, d⟩ := hd
    unfold runAllDomains
    cases hr : run i d <;> simp [hr, ih]

/-- **C8.** Per-domain failure isolation in a Batch Scheduler tick:
every listed domain is processed regardless of failures of the other
domains — the result list covers all domains, and the entry for the
domain at position `k` depends only on that domain's own run (a failing
domain is left unchanged, a succeeding one is updated), never on
whether another domain's run failed. -/
theorem domain_failure_isolated (run : Nat → DomainState → Option DomainState)
    (ds : List (Nat × DomainState)) (k : Nat) (hk : k < ds.length) :
    (runAllDomains run ds).1.length = ds.length ∧
    (runAllDomains run ds).1.get? k =
      some (match run (ds.get ⟨k, hk⟩).1 (ds.get ⟨k, hk⟩).2 with
            | some d2 => ((ds.get ⟨k, hk⟩).1, d2)
            | none => ds.get ⟨k, hk⟩) := by
  refine ⟨runAllDomains_length run ds, ?_⟩
  induction ds generalizing k with
  | nil => simp at hk
  | cons hd rest ih =>
    obtain ⟨i, d⟩ := hd
    match k with
    | 0 =>
      unfold runAllDomains
      cases hr : run i d <;> simp [hr]
    | k + 1 =>
      have hk' : k < rest.length := by simpa using hk
      unfold runAllDomains
      cases hr : run i d <;>
        simp only [hr, List.get?_cons_succ, List.get_cons_succ] <;>
        exact ih k hk'

/-- Witness for C8: with the run for domain 0 failing and domain 1
succeeding, both domains appear in the result and domain 1 is still
processed. -/
theorem domain_failure_isolated_witness :
    (runAllDomains (fun i d => if i = 0 then none else some d)
        [(0, initState 0), (1, initState 1)]).1.length = 2 ∧
    (runAllDomains (fun i d => if i = 0 then none else some d)
        [(0, initState 0), (1, initState 1)]).1.get? 1 =
      some (1, initState 1) :=
  domain_failure_isolated (fun i d => if i = 0 then none else some d)
    [(0, initState 0), (1, initState 1)] 1 (by decide)

/-- **C10.** In the sequencer binary's `main`, a failure of
`sequencer.RunAndConnect` is not fatal: the error is only logged, the
deferred call to the returned stop function is still registered, and
execution proceeds to the admin server, the HTTP server and the
periodic batch loop — the process does not exit. -/
theorem sequencer_launch_error_nonfatal (f : MainFailures)
    (h1 : f.dialMapErr = false) (h2 : f.dialLogErr = false)
    (h3 : f.openDBErr = false) (h4 : f.mutationStorageErr = false)
    (h5 : f.domainStorageErr = false) (h6 : f.runAndConnectErr = true) :
    MainEvent.logSequencerLaunchError ∈ mainTrace f ∧
    MainEvent.deferStop ∈ mainTrace f ∧
    MainEvent.newAdminServer ∈ mainTrace f ∧
    MainEvent.startHTTPServer ∈ mainTrace f ∧
    MainEvent.periodicallyRun ∈ mainTrace f ∧
    MainEvent.exitProcess ∉ mainTrace f := by
  cases hp : f.periodicRunErr <;>
    simp [mainTrace, h1, h2, h3, h4, h5, h6, hp]

/-- Witness for C10 at the failure profile where only `RunAndConnect`
fails. -/
theorem sequencer_launch_error_nonfatal_witness :
    MainEvent.logSequencerLaunchError ∈
      mainTrace ⟨false, false, false, false, false, true, false⟩ ∧
    MainEvent.deferStop ∈
      mainTrace ⟨false, false, false, false, false, true, false⟩ ∧
    MainEvent.newAdminServer ∈
      mainTrace ⟨false, false, false, false, false, true, false⟩ ∧
    MainEvent.startHTTPServer ∈
      mainTrace ⟨false, false, false, false, false, true, false⟩ ∧
    MainEvent.periodicallyRun ∈
      mainTrace ⟨false, false, false, false, false, true, false⟩ ∧
    MainEvent.exitProcess ∉
      mainTrace ⟨false, false, false, false, false, true, false⟩ :=
  sequencer_launch_error_nonfatal
    ⟨false, false, false, false, false, true, false⟩ rfl rfl rfl rfl rfl rfl

/-- **C3.** If the Tree Anchor Client commit for a non-empty batch
fails, the whole batch is abandoned with no partial state: the watermark
and revisions are unchanged (the tick is the identity), the next tick
re-reads the identical batch, and a subsequent successful tick produces
exactly one new revision. -/
theorem commit_failure_retry (hb : Bool) (maxB : Nat) (s : DomainState)
    (hne : ReadBatch s.log s.watermark maxB ≠ []) :
    tick false hb maxB s = s ∧
    ReadBatch (tick false hb maxB s).log
        (tick false hb maxB s).watermark maxB =
      ReadBatch s.log s.watermark maxB ∧
    (tick true hb maxB (tick false hb maxB s)).revisions.length =
      s.revisions.length + 1 := by
  cases hB : ReadBatch s.log s.watermark maxB with
  | nil => exact absurd hB hne
  | cons x xs =>
    have h1 : tick false hb maxB s = s := by
      unfold tick
      rw [hB]
      simp
    refine ⟨h1, by rw [h1]; exact hB, ?_⟩
    rw [h1]
    unfold tick
    rw [hB]
    simp

/-- Witness for C3: a pending mutation, a failed commit, then a
successful retry producing exactly one revision. -/
theorem commit_failure_retry_witness :
    tick false false 100 ⟨0, [⟨1, none, 5, true⟩], [], 0, []⟩ =
      ⟨0, [⟨1, none, 5, true⟩], [], 0, []⟩ ∧
    ReadBatch (tick false false 100
          ⟨0, [⟨1, none, 5, true⟩], [], 0, []⟩).log
        (tick false false 100
          ⟨0, [⟨1, none, 5, true⟩], [], 0, []⟩).watermark 100 =
      ReadBatch [⟨1, none, 5, true⟩] 0 100 ∧
    (tick true false 100 (tick false false 100
        ⟨0, [⟨1, none, 5, true⟩], [], 0, []⟩)).revisions.length = 0 + 1 :=
  commit_failure_retry false 100 ⟨0, [⟨1, none, 5, true⟩], [], 0, []⟩
    (by decide)

theorem tick_empty_no_hb (cOk hbt : Bool) (maxB : Nat) (s : DomainState)
    (hB : ReadBatch s.log s.watermark maxB = [])
    (hhb : (hbt && cOk) = false) :
    tick cOk hbt maxB s = s := by
  unfold tick
  rw [hB, hhb]
  simp

theorem tick_empty_hb (cOk hbt : Bool) (maxB : Nat) (s : DomainState)
    (hB : ReadBatch s.log s.watermark maxB = [])
    (hhb : (hbt && cOk) = true) :
    tick cOk hbt maxB s =
      { s with revisions := s.revisions ++
          [⟨s.creation + s.revisions.length, s.watermark, s.leaves⟩] } := by
  unfold tick
  rw [hB, hhb]
  simp

theorem tick_fail (hbt : Bool) (maxB : Nat) (s : DomainState)
    (x : Nat × Mutation) (xs : List (Nat × Mutation))
    (hB : ReadBatch s.log s.watermark maxB = x :: xs) :
    tick false hbt maxB s = s := by
  unfold tick
  rw [hB]
  simp

theorem tick_commit (hbt : Bool) (maxB : Nat) (s : DomainState)
    (x : Nat × Mutation) (xs : List (Nat × Mutation))
    (hB : ReadBatch s.log s.watermark maxB = x :: xs) :
    tick true hbt maxB s =
      { s with
        leaves := (runBatch s.leaves ((x :: xs).map (·.2))).1,
        revisions := s.revisions ++
          [⟨s.creation + s.revisions.length,
            s.watermark + (x :: xs).length,
            (runBatch s.leaves ((x :: xs).map (·.2))).1⟩],
        watermark := s.watermark + (x :: xs).length } := by
  unfold tick
  rw [hB]
  rfl

/-- **C1.** In every reachable per-domain state, the watermark advance
and the revision commit form a single atomic step: the watermark equals
the last sequence number anchored by the newest committed revision
(and is 0 when no revision exists), and no committed revision anchors
mutations beyond the watermark. -/
theorem watermark_revision_atomic (s : DomainState) (hs : Reachable s) :
    WatermarkAnchored s := by
  induction hs with
  | init c =>
    unfold WatermarkAnchored
    exact ⟨rfl, by intro r hr; simp [initState] at hr⟩
  | send s m hprev ih => exact ih
  | step s cOk hbt maxB hprev ih =>
    obtain ⟨hlast, hall⟩ := ih
    cases hB : ReadBatch s.log s.watermark maxB with
    | nil =>
      cases hhb : hbt && cOk with
      | false =>
        rw [tick_empty_no_hb cOk hbt maxB s hB hhb]
        exact ⟨hlast, hall⟩
      | true =>
        rw [tick_empty_hb cOk hbt maxB s hB hhb]
        unfold WatermarkAnchored
        constructor
        · simp [List.getLast?_concat]
        · intro r hr
          rcases List.mem_append.mp hr with hr | hr
          · exact hall r hr
          · rw [List.mem_singleton.mp hr]
        
    | cons x xs =>
      cases cOk with
      | false =>
        rw [tick_fail hbt maxB s x xs hB]
        exact ⟨hlast, hall⟩
      | true =>
        rw [tick_commit hbt maxB s x xs hB]
        unfold WatermarkAnchored
        constructor
        · simp [List.getLast?_concat]
        · intro r hr
          rcases List.mem_append.mp hr with hr | hr
          · exact Nat.le_trans (hall r hr) (Nat.le_add_right _ _)
          · rw [List.mem_singleton.mp hr]

/-- Witness for C1 at a concrete reachable state: one admitted mutation
followed by a successfully committed tick. -/
theorem watermark_revision_atomic_witness :
    WatermarkAnchored (tick true false 100
      { initState 0 with
        log := (Send (initState 0).log ⟨1, none, 5, true⟩).1 }) :=
  watermark_revision_atomic _
    (Reachable.step _ true false 100
      (Reachable.send (initState 0) ⟨1, none, 5, true⟩ (Reachable.init 0)))

/-- **C5.** In every reachable per-domain state the committed revision
numbers form a contiguous, strictly increasing sequence starting at the
domain creation revision: the revision stored at position `k` carries
number `creation + k`. -/
theorem revisions_contiguous (s : DomainState) (hs : Reachable s) :
    ∀ (k : Nat) (r : Revision), s.revisions.get? k = some r →
      r.number = s.creation + k := by
  induction hs with
  | init c => intro k r hr; simp [initState] at hr
  | send s m hprev ih => exact ih
  | step s cOk hbt maxB hprev ih =>
    intro k r hr
    cases hB : ReadBatch s.log s.watermark maxB with
    | nil =>
      cases hhb : hbt && cOk with
      | false =>
        rw [tick_empty_no_hb cOk hbt maxB s hB hhb] at hr ⊢
        exact ih k r hr
      | true =>
        rw [tick_empty_hb cOk hbt maxB s hB hhb] at hr ⊢
        by_cases hk : k < s.revisions.length
        · rw [List.get?_append hk] at hr
          exact ih k r hr
        · have hk2 : s.revisions.length ≤ k := Nat.le_of_not_lt hk
          rw [List.get?_append_right hk2] at hr
          cases hsub : k - s.revisions.length with
          | zero =>
            rw [hsub] at hr
            rw [List.get?_cons_zero] at hr
            injection hr with hr2
            rw [← hr2]
            have hkeq : k = s.revisions.length := by omega
            simp [hkeq]
          | succ n =>
            rw [hsub] at hr
            simp at hr
    | cons x xs =>
      cases cOk with
      | false =>
        rw [tick_fail hbt maxB s x xs hB] at hr ⊢
        exact ih k r hr
      | true =>
        rw [tick_commit hbt maxB s x xs hB] at hr ⊢
        by_cases hk : k < s.revisions.length
        · rw [List.get?_append hk] at hr
          exact ih k r hr
        · have hk2 : s.revisions.length ≤ k := Nat.le_of_not_lt hk
          rw [List.get?_append_right hk2] at hr
          cases hsub : k - s.revisions.length with
          | zero =>
            rw [hsub] at hr
            rw [List.get?_cons_zero] at hr
            injection hr with hr2
            rw [← hr2]
            have hkeq : k = s.revisions.length := by omega
            simp [hkeq]
          | succ n =>
            rw [hsub] at hr
            simp at hr

/-- Witness for C5: in the state reached by one admitted mutation and
one committed tick, the revision at position 0 carries the creation
number. -/
theorem revisions_contiguous_witness :
    (⟨0, 1, [(1, 5)]⟩ : Revision).number =
      (tick true false 100
        { initState 0 with
          log := (Send (initState 0).log ⟨1, none, 5, true⟩).1 }).creation
        + 0 :=
  revisions_contiguous _
    (Reachable.step _ true false 100
      (Reachable.send (initState 0) ⟨1, none, 5, true⟩ (Reachable.init 0)))
    0 ⟨0, 1, [(1, 5)]⟩ rfl

end KT

